import Mathlib

/-!
Verification of the diff engine, value normalizer, split-row projector and
value-tree renderer of the run-comparison webapp
(src/webapp/src/app/runs/page.tsx client part, src/unnamed/part_005).

The JavaScript values handled by the code are modelled by the mutual
inductive type JsValue below.  Machine floating point numbers never occur
in the claims; numeric literals are modelled as integers.  JavaScript
BigInt values are included because JSON.stringify throws on them, which is
what exercises the try/catch fallbacks of toPrettyJSON.  The undefined
value is the constructor undef.
-/

mutual

inductive JsValue where
  | undef : JsValue
  | null : JsValue
  | bool (b : Bool) : JsValue
  | num (n : Int) : JsValue
  | bigint (n : Int) : JsValue
  | str (s : String) : JsValue
  | arr (xs : JsArr) : JsValue
  | obj (kvs : JsObj) : JsValue

inductive JsArr where
  | nil : JsArr
  | cons (hd : JsValue) (tl : JsArr) : JsArr

inductive JsObj where
  | nil : JsObj
  | cons (k : String) (v : JsValue) (tl : JsObj) : JsObj

end

def objToList : JsObj → List (String × JsValue)
  | .nil => []
  | .cons k v l => (k, v) :: objToList l

def listToObj : List (String × JsValue) → JsObj
  | [] => .nil
  | (k, v) :: l => .cons k v (listToObj l)

/-- Boolean test for the undefined value, used instead of propositional
equality so that hypotheses stay decidable. -/
def isUndef : JsValue → Bool
  | .undef => true
  | _ => false

/-- Code point comparison of character lists, modelling the default
JavaScript string comparison used by Array.prototype.sort on keys. -/
def charsLe : List Char → List Char → Bool
  | [], _ => true
  | _ :: _, [] => false
  | c :: cs, d :: ds =>
    if c.toNat < d.toNat then true
    else if d.toNat < c.toNat then false
    else charsLe cs ds

def strLe (s t : String) : Bool := charsLe s.data t.data

/-- The key comparison used to sort object entries, from
Object.keys(value).sort() in stableSortKeys. -/
def keyLe (p q : String × JsValue) : Prop := strLe p.1 q.1 = true

instance : DecidableRel keyLe := fun p q => by
  unfold keyLe; infer_instance

/-- Sorting the entries of an object by key, the Object.keys(value).sort()
step of stableSortKeys (page.tsx line 150). -/
def sortObj (kvs : JsObj) : JsObj :=
  listToObj (List.insertionSort keyLe (objToList kvs))

mutual

/-- Translation of stableSortKeys (page.tsx lines 144 to 156): arrays are
mapped elementwise, objects are rebuilt with keys sorted ascending and
values recursively processed, all other values are returned unchanged. -/
def stableSortKeys : JsValue → JsValue
  | .arr xs => .arr (sskArr xs)
  | .obj kvs => .obj (sortObj (sskObj kvs))
  | v => v

def sskArr : JsArr → JsArr
  | .nil => .nil
  | .cons x xs => .cons (stableSortKeys x) (sskArr xs)

def sskObj : JsObj → JsObj
  | .nil => .nil
  | .cons k v l => .cons k (stableSortKeys v) (sskObj l)

end

mutual

/-- Presence of a BigInt anywhere in a value.  JSON.stringify throws
exactly on these values in the fragment modelled here. -/
def hasBigint : JsValue → Bool
  | .bigint _ => true
  | .arr xs => hasBigintArr xs
  | .obj kvs => hasBigintObj kvs
  | _ => false

def hasBigintArr : JsArr → Bool
  | .nil => false
  | .cons x xs => hasBigint x || hasBigintArr xs

def hasBigintObj : JsObj → Bool
  | .nil => false
  | .cons _ v l => hasBigint v || hasBigintObj l

end

/-- Two space indentation at nesting depth k, as produced by
JSON.stringify(value, null, 2). -/
def ind (k : Nat) : String := String.mk (List.replicate (2 * k) ' ')

def hexDigit (n : Nat) : Char :=
  if n < 10 then Char.ofNat (48 + n) else Char.ofNat (87 + n)

/-- JSON string escaping as performed by JSON.stringify. -/
def escChar (c : Char) : List Char :=
  if c = '"' then ['\\', '"']
  else if c = '\\' then ['\\', '\\']
  else if c = '\n' then ['\\', 'n']
  else if c = '\r' then ['\\', 'r']
  else if c = '\t' then ['\\', 't']
  else if c = '\x08' then ['\\', 'b']
  else if c = '\x0c' then ['\\', 'f']
  else if c.toNat < 32 then
    ['\\', 'u', '0', '0', hexDigit (c.toNat / 16), hexDigit (c.toNat % 16)]
  else [c]

def quoteString (s : String) : String :=
  "\"" ++ String.mk (s.data.flatMap escChar) ++ "\""

mutual

/-- Model of JSON.stringify(v, null, 2) for a value sitting at nesting
depth d.  A BigInt makes serialization fail (TypeError in JavaScript),
modelled as the error case of Except.  Undefined object entries are
skipped and undefined array elements serialize as null, exactly as in
JavaScript; a directly passed undefined produces no string. -/
def jstr (d : Nat) : JsValue → Except Unit String
  | .undef => .error ()
  | .null => .ok "null"
  | .bool b => .ok (cond b "true" "false")
  | .num n => .ok (toString n)
  | .bigint _ => .error ()
  | .str s => .ok (quoteString s)
  | .arr xs =>
    match jstrArr (d + 1) xs with
    | .error e => .error e
    | .ok [] => .ok "[]"
    | .ok items =>
      .ok ("[\n" ++ String.intercalate ",\n" (items.map (fun it => ind (d + 1) ++ it)) ++
        "\n" ++ ind d ++ "]")
  | .obj kvs =>
    match jstrObj (d + 1) kvs with
    | .error e => .error e
    | .ok [] => .ok "\x7b\x7d"
    | .ok items =>
      .ok ("\x7b\n" ++ String.intercalate ",\n" (items.map (fun it => ind (d + 1) ++ it)) ++
        "\n" ++ ind d ++ "\x7d")

def jstrArr (d : Nat) : JsArr → Except Unit (List String)
  | .nil => .ok []
  | .cons x xs =>
    match (match x with | .undef => Except.ok "null" | _ => jstr d x) with
    | .error e => .error e
    | .ok s =>
      match jstrArr d xs with
      | .error e => .error e
      | .ok rest => .ok (s :: rest)

def jstrObj (d : Nat) : JsObj → Except Unit (List String)
  | .nil => .ok []
  | .cons k v l =>
    match v with
    | .undef => jstrObj d l
    | v =>
      match jstr d v with
      | .error e => .error e
      | .ok s =>
        match jstrObj d l with
        | .error e => .error e
        | .ok rest => .ok ((quoteString k ++ ": " ++ s) :: rest)

end

mutual

/-- JavaScript String(value) coercion, the last fallback of toPrettyJSON. -/
def jsToString : JsValue → String
  | .undef => "undefined"
  | .null => "null"
  | .bool b => cond b "true" "false"
  | .num n => toString n
  | .bigint n => toString n
  | .str s => s
  | .arr xs => String.intercalate "," (jsArrStrings xs)
  | .obj _ => "[object Object]"

def jsArrStrings : JsArr → List String
  | .nil => []
  | .cons x xs =>
    (match x with
      | .undef => ""
      | .null => ""
      | x => jsToString x) :: jsArrStrings xs

end

/-- Translation of toPrettyJSON (page.tsx lines 158 to 169): undefined maps
to the empty string; otherwise serialize the key-sorted value, falling back
to the original value and then to String coercion when serialization
throws. -/
def toPrettyJSON (v : JsValue) : String :=
  match v with
  | .undef => ""
  | v =>
    match jstr 0 (stableSortKeys v) with
    | .ok s => s
    | .error _ =>
      match jstr 0 v with
      | .ok s => s
      | .error _ => jsToString v

/-- Structural equality up to reordering of object keys at any nesting
level, the equivalence the spec calls key-order permutation.  The swap
constructor carries the disequality of the two keys because JavaScript
objects cannot hold the same key twice. -/
inductive KeyPerm : JsValue → JsValue → Prop where
  | undef : KeyPerm .undef .undef
  | null : KeyPerm .null .null
  | bool (b : Bool) : KeyPerm (.bool b) (.bool b)
  | num (n : Int) : KeyPerm (.num n) (.num n)
  | bigint (n : Int) : KeyPerm (.bigint n) (.bigint n)
  | str (s : String) : KeyPerm (.str s) (.str s)
  | arrNil : KeyPerm (.arr .nil) (.arr .nil)
  | arrCons {x y : JsValue} {xs ys : JsArr} :
      KeyPerm x y → KeyPerm (.arr xs) (.arr ys) →
      KeyPerm (.arr (.cons x xs)) (.arr (.cons y ys))
  | objNil : KeyPerm (.obj .nil) (.obj .nil)
  | objCons {v w : JsValue} {l m : JsObj} (k : String) :
      KeyPerm v w → KeyPerm (.obj l) (.obj m) →
      KeyPerm (.obj (.cons k v l)) (.obj (.cons k w m))
  | objSwap {k1 k2 : String} {v1 v2 : JsValue} {l : JsObj} :
      k1 ≠ k2 →
      KeyPerm (.obj (.cons k1 v1 (.cons k2 v2 l))) (.obj (.cons k2 v2 (.cons k1 v1 l)))
  | trans {u v w : JsValue} : KeyPerm u v → KeyPerm v w → KeyPerm u w

/-!
Line diff engine (page.tsx lines 171 to 213).
-/

/-- The EditOp variant of the diff engine (page.tsx lines 171 to 174). -/
inductive Op where
  | context (left right : String) : Op
  | del (left : String) : Op
  | add (right : String) : Op
deriving DecidableEq

/-- JavaScript String.prototype.split with separator newline, on the
character list of the string: the empty string yields one empty piece and
a trailing newline yields a trailing empty piece. -/
def splitNlChars : List Char → List (List Char)
  | [] => [[]]
  | c :: cs =>
    if c = '\n' then [] :: splitNlChars cs
    else
      match splitNlChars cs with
      | [] => [[c]]
      | h :: t => (c :: h) :: t

def splitNl (s : String) : List String :=
  (splitNlChars s.data).map String.mk

/-- One row of the suffix LCS recurrence: the length of a longest common
subsequence of the suffix starting at x and an arbitrary second suffix,
given the same function for the next shorter first suffix. -/
def lcsAux (f : List String → Nat) (x : String) : List String → Nat
  | [] => 0
  | y :: ys => if x = y then f ys + 1 else max (f (y :: ys)) (lcsAux f x ys)

/-- Length of a longest common subsequence of two line lists, the value
the DP table of computeOps stores for each pair of suffixes. -/
def lcsLen : List String → List String → Nat
  | [] => fun _ => 0
  | x :: xs => lcsAux (lcsLen xs) x

/-- The forward walk of the spec, expressed recursively on the two line
suffixes: context on equal heads, delete when the delete side of the
recurrence is at least as large, insert otherwise, and suffix draining at
the ends. -/
def walkAux (f : List String → List Op) (g : List String → Nat)
    (a : String) (as : List String) : List String → List Op
  | [] => (a :: as).map .del
  | b :: bs =>
    if a = b then .context a b :: f bs
    else if g (b :: bs) ≥ lcsLen (a :: as) bs then .del a :: f (b :: bs)
    else .add b :: walkAux f g a as bs

def walkSpec : List String → List String → List Op
  | [] => fun bs => bs.map .add
  | a :: as => walkAux (walkSpec as) (lcsLen as) a as

/-- The DP table of computeOps (page.tsx lines 181 to 189), as the function
giving the value the filled table holds at indices i and j: zero on and
past the border, otherwise the bottom-up recurrence on the two suffixes. -/
def lcsTab (a b : List String) (i j : Nat) : Nat :=
  if h : i < a.length ∧ j < b.length then
    if a.get ⟨i, h.1⟩ = b.get ⟨j, h.2⟩ then lcsTab a b (i + 1) (j + 1) + 1
    else max (lcsTab a b (i + 1) j) (lcsTab a b i (j + 1))
  else 0
termination_by (a.length - i) + (b.length - j)
decreasing_by
  · omega
  · omega
  · omega

/-- The while loops of computeOps (page.tsx lines 190 to 212): the main
walk over indices i and j followed by draining the remaining suffix of a
as deletes and the remaining suffix of b as inserts. -/
def walkIdx (a b : List String) (i j : Nat) : List Op :=
  if h : i < a.length ∧ j < b.length then
    if a.get ⟨i, h.1⟩ = b.get ⟨j, h.2⟩ then
      .context (a.get ⟨i, h.1⟩) (b.get ⟨j, h.2⟩) :: walkIdx a b (i + 1) (j + 1)
    else if lcsTab a b (i + 1) j ≥ lcsTab a b i (j + 1) then
      .del (a.get ⟨i, h.1⟩) :: walkIdx a b (i + 1) j
    else
      .add (b.get ⟨j, h.2⟩) :: walkIdx a b i (j + 1)
  else (a.drop i).map .del ++ (b.drop j).map .add
termination_by (a.length - i) + (b.length - j)
decreasing_by
  · omega
  · omega
  · omega

/-- Translation of computeOps (page.tsx lines 176 to 213). -/
def computeOps (leftText rightText : String) : List Op :=
  walkIdx (splitNl leftText) (splitNl rightText) 0 0

/-- Replaying the script on the left side: keep context left lines and
delete lines. -/
def replayLeft : List Op → List String
  | [] => []
  | .context l _ :: ops => l :: replayLeft ops
  | .del l :: ops => l :: replayLeft ops
  | .add _ :: ops => replayLeft ops

/-- Replaying the script on the right side: keep context right lines and
insert lines. -/
def replayRight : List Op → List String
  | [] => []
  | .context _ r :: ops => r :: replayRight ops
  | .del _ :: ops => replayRight ops
  | .add r :: ops => r :: replayRight ops

/-- Boolean check that a context op carries equal lines. -/
def ctxOpEq : Op → Bool
  | .context l r => l == r
  | _ => true

def isCtxOp : Op → Bool
  | .context _ _ => true
  | _ => false

def countCtx (ops : List Op) : Nat := ops.countP isCtxOp

def nonContextCount (ops : List Op) : Nat := ops.countP (fun op => !isCtxOp op)

/-- The left lines of the context ops of a script, in order. -/
def ctxLeftLines : List Op → List String
  | [] => []
  | .context l _ :: ops => l :: ctxLeftLines ops
  | _ :: ops => ctxLeftLines ops

/-- The right lines of the context ops of a script, in order. -/
def ctxRightLines : List Op → List String
  | [] => []
  | .context _ r :: ops => r :: ctxRightLines ops
  | _ :: ops => ctxRightLines ops

/-- A valid edit script from lines as to lines bs in the sense of the
script validity invariant: replaying reconstructs both sides and every
context op carries equal lines. -/
def ValidScript (as bs : List String) (ops : List Op) : Prop :=
  replayLeft ops = as ∧ replayRight ops = bs ∧ ops.all ctxOpEq = true

/-- The unified display mode of DiffView (page.tsx lines 306 to 328):
inserts prefixed with plus, deletes with minus, context with two spaces. -/
def unifiedLines (ops : List Op) : List String :=
  ops.map fun op =>
    match op with
    | .add r => "+ " ++ r
    | .del l => "- " ++ l
    | .context l _ => "  " ++ l

/-!
Split-row projection (page.tsx lines 215 to 239).
-/

inductive RowType where
  | context : RowType
  | add : RowType
  | del : RowType
  | change : RowType
deriving DecidableEq

/-- One split-view row.  The source always assigns both text fields when a
row is pushed, representing an absent side by the empty string, so the
fields are plain strings here. -/
structure Row where
  type : RowType
  left : String
  right : String
deriving DecidableEq

/-- One step of the fold in opsToSplitRows, on the reversed row list, with
the most recently pushed row first: a context or delete op pushes a new
row, an insert op merges into an open delete row (type del with empty
right side) and otherwise pushes an add row. -/
def pushRow (acc : List Row) (op : Op) : List Row :=
  match op with
  | .context l r => ⟨.context, l, r⟩ :: acc
  | .del l => ⟨.del, l, ""⟩ :: acc
  | .add r =>
    match acc with
    | prev :: rest =>
      if prev.type = .del ∧ prev.right = "" then ⟨.change, prev.left, r⟩ :: rest
      else ⟨.add, "", r⟩ :: prev :: rest
    | [] => [⟨.add, "", r⟩]

/-- Translation of opsToSplitRows (page.tsx lines 221 to 239). -/
def opsToSplitRows (ops : List Op) : List Row :=
  (ops.foldl pushRow []).reverse

/-- The left texts of the rows that carry a left side (context, del and
change rows), in row order. -/
def rowLeftTexts (rows : List Row) : List String :=
  rows.filterMap fun r =>
    match r.type with
    | .context => some r.left
    | .del => some r.left
    | .change => some r.left
    | .add => none

/-- The right texts of the rows that carry a right side (context, add and
change rows), in row order. -/
def rowRightTexts (rows : List Row) : List String :=
  rows.filterMap fun r =>
    match r.type with
    | .context => some r.right
    | .add => some r.right
    | .change => some r.right
    | .del => none

/-- The left lines of the context and delete ops of a script, in order. -/
def opLeftLines (ops : List Op) : List String :=
  ops.filterMap fun op =>
    match op with
    | .context l _ => some l
    | .del l => some l
    | .add _ => none

/-- The right lines of the context and insert ops of a script, in order. -/
def opRightLines (ops : List Op) : List String :=
  ops.filterMap fun op =>
    match op with
    | .context _ r => some r
    | .add r => some r
    | .del _ => none

/-!
Value tree renderer (src/unnamed/part_005).
-/

/-- The rendered tree produced by JsonNode: leaves carry their rendered
literal and no collapse state, containers carry the header text, the
initial collapsed flag from useState and the rendered children. -/
inductive RTree where
  | leaf (name : Option String) (rendered : String) : RTree
  | container (name : Option String) (header : String) (collapsed : Bool)
      (children : List RTree) : RTree

/-- A value is a container when it is an array or a plain keyed mapping
(isArray or isRecord in part_005 lines 18 to 20 and 35 to 37). -/
def isContainer : JsValue → Bool
  | .arr _ => true
  | .obj _ => true
  | _ => false

def arrLen : JsArr → Nat
  | .nil => 0
  | .cons _ xs => arrLen xs + 1

def objLen : JsObj → Nat
  | .nil => 0
  | .cons _ _ l => objLen l + 1

/-- Rendering of a leaf value (part_005 lines 57 to 67): strings are JSON
quoted, everything else is String coerced. -/
def renderLeaf : JsValue → String
  | .str s => quoteString s
  | v => jsToString v

mutual

/-- Translation of JsonNode (part_005 lines 22 to 110) restricted to the
structure the claims are about: the container test, the header text, the
initial collapsed flag (isContainer and depth at least
defaultCollapsedDepth, line 45 to 47) and the recursive children at depth
plus one, array children unnamed and object children named by key. -/
def JsonNode (name : Option String) (v : JsValue)
    (depth defaultCollapsedDepth : Nat) : RTree :=
  match v with
  | .arr xs =>
    .container name ("Array(" ++ toString (arrLen xs) ++ ")")
      (decide (defaultCollapsedDepth ≤ depth))
      (jsonChildrenArr xs (depth + 1) defaultCollapsedDepth)
  | .obj kvs =>
    .container name ("Object(" ++ toString (objLen kvs) ++ ")")
      (decide (defaultCollapsedDepth ≤ depth))
      (jsonChildrenObj kvs (depth + 1) defaultCollapsedDepth)
  | v => .leaf name (renderLeaf v)

def jsonChildrenArr : JsArr → Nat → Nat → List RTree
  | .nil, _, _ => []
  | .cons x xs, d, dcd => JsonNode none x d dcd :: jsonChildrenArr xs d dcd

def jsonChildrenObj : JsObj → Nat → Nat → List RTree
  | .nil, _, _ => []
  | .cons k v l, d, dcd => JsonNode (some k) v d dcd :: jsonChildrenObj l d dcd

end

/-- Translation of JsonView (part_005 lines 112 to 130): render the value
at depth zero with no name.  The tryParse step of lines 7 to 16 is the
identity on every non-string value, and all values in the claims are
non-strings, so it is dropped here. -/
def JsonView (value : JsValue) (defaultCollapsedDepth : Nat := 0) : RTree :=
  JsonNode none value 0 defaultCollapsedDepth

/-- The initial collapsed flag of a rendered node: none for leaves, which
have no disclosure state, some flag for containers. -/
def rtCollapsed : RTree → Option Bool
  | .leaf _ _ => none
  | .container _ _ c _ => some c

def isDelOp : Op → Bool
  | .del _ => true
  | _ => false

def isAddOp : Op → Bool
  | .add _ => true
  | _ => false

/-- The per-row field and provenance invariant of the split projection,
relative to the ops list S the rows came from. -/
def RowOk (S : List Op) (r : Row) : Prop :=
  (r.type = RowType.change → Op.del r.left ∈ S ∧ Op.add r.right ∈ S) ∧
  (r.type = RowType.del → r.right = "" ∧ Op.del r.left ∈ S) ∧
  (r.type = RowType.add → r.left = "" ∧ Op.add r.right ∈ S) ∧
  (r.type = RowType.context → Op.context r.left r.right ∈ S)

/-- The forbidden adjacency of the coalescing invariant: a del row with
empty right side immediately followed by an add row. -/
def NoDelAddPair (p q : Row) : Prop :=
  ¬(p.type = RowType.del ∧ p.right = "" ∧ q.type = RowType.add)

def isErrS : Except Unit String → Bool
  | .error _ => true
  | .ok _ => false

def isErrL : Except Unit (List String) → Bool
  | .error _ => true
  | .ok _ => false

theorem lcsLen_nil_left (ys : List String) : lcsLen [] ys = 0 := rfl

theorem lcsLen_nil_right (xs : List String) : lcsLen xs [] = 0 := by
  cases xs <;> rfl

theorem lcsLen_cons_cons (x y : String) (xs ys : List String) :
    lcsLen (x :: xs) (y :: ys) =
      if x = y then lcsLen xs ys + 1
      else max (lcsLen xs (y :: ys)) (lcsLen (x :: xs) ys) := rfl

theorem walkSpec_nil_left (bs : List String) : walkSpec [] bs = bs.map .add := rfl

theorem walkSpec_nil_right (a : String) (as : List String) :
    walkSpec (a :: as) [] = (a :: as).map .del := rfl

theorem walkSpec_cons_cons (a b : String) (as bs : List String) :
    walkSpec (a :: as) (b :: bs) =
      if a = b then .context a b :: walkSpec as bs
      else if lcsLen as (b :: bs) ≥ lcsLen (a :: as) bs then
        .del a :: walkSpec as (b :: bs)
      else .add b :: walkSpec (a :: as) bs := rfl

theorem lcsLen_mono_pair : ∀ (n : Nat) (xs ys : List String), xs.length + ys.length ≤ n →
    (∀ y, lcsLen xs ys ≤ lcsLen xs (y :: ys)) ∧
      (∀ x, lcsLen (x :: xs) ys ≤ lcsLen xs ys + 1) := by
  intro n
  induction n with
  | zero =>
    intro xs ys h
    have hx : xs = [] := by cases xs <;> simp_all
    have hy : ys = [] := by cases ys <;> simp_all
    subst hx; subst hy
    refine ⟨fun y => ?_, fun x => ?_⟩ <;> simp [lcsLen_nil_left, lcsLen_nil_right]
  | succ n ih =>
    intro xs ys h
    constructor
    · intro y
      cases xs with
      | nil => simp [lcsLen_nil_left]
      | cons x' xs' =>
        rw [lcsLen_cons_cons]
        by_cases hxy : x' = y
        · rw [if_pos hxy]
          exact (ih xs' ys (by simp only [List.length_cons] at h; omega)).2 x'
        · rw [if_neg hxy]
          exact le_max_right _ _
    · intro x
      cases ys with
      | nil => simp [lcsLen_nil_right]
      | cons y' ys' =>
        rw [lcsLen_cons_cons]
        by_cases hxy : x = y'
        · rw [if_pos hxy]
          have h1 := (ih xs ys' (by simp only [List.length_cons] at h; omega)).1 y'
          omega
        · rw [if_neg hxy]
          have h1 := (ih xs ys' (by simp only [List.length_cons] at h; omega)).1 y'
          have h2 := (ih xs ys' (by simp only [List.length_cons] at h; omega)).2 x
          rw [Nat.max_le]
          omega

theorem lcsLen_mono_pair2 : ∀ (n : Nat) (xs ys : List String), xs.length + ys.length ≤ n →
    (∀ x, lcsLen xs ys ≤ lcsLen (x :: xs) ys) ∧
      (∀ y, lcsLen xs (y :: ys) ≤ lcsLen xs ys + 1) := by
  intro n
  induction n with
  | zero =>
    intro xs ys h
    have hx : xs = [] := by cases xs <;> simp_all
    have hy : ys = [] := by cases ys <;> simp_all
    subst hx; subst hy
    refine ⟨fun x => ?_, fun y => ?_⟩ <;> simp [lcsLen_nil_left, lcsLen_nil_right]
  | succ n ih =>
    intro xs ys h
    constructor
    · intro x
      cases ys with
      | nil => simp [lcsLen_nil_right]
      | cons y' ys' =>
        rw [lcsLen_cons_cons]
        by_cases hxy : x = y'
        · rw [if_pos hxy]
          have h1 := (ih xs ys' (by simp only [List.length_cons] at h; omega)).2 y'
          omega
        · rw [if_neg hxy]
          exact le_max_left _ _
    · intro y
      cases xs with
      | nil => simp [lcsLen_nil_left]
      | cons x' xs' =>
        rw [lcsLen_cons_cons]
        by_cases hxy : x' = y
        · rw [if_pos hxy]
          have h1 := (ih xs' ys (by simp only [List.length_cons] at h; omega)).1 x'
          omega
        · rw [if_neg hxy]
          have h1 := (ih xs' ys (by simp only [List.length_cons] at h; omega)).1 x'
          have h2 := (ih xs' ys (by simp only [List.length_cons] at h; omega)).2 y
          rw [Nat.max_le]
          omega

theorem lcsLen_le_cons_right (xs ys : List String) (y : String) :
    lcsLen xs ys ≤ lcsLen xs (y :: ys) :=
  (lcsLen_mono_pair (xs.length + ys.length) xs ys le_rfl).1 y

theorem lcsLen_cons_left_le (x : String) (xs ys : List String) :
    lcsLen (x :: xs) ys ≤ lcsLen xs ys + 1 :=
  (lcsLen_mono_pair (xs.length + ys.length) xs ys le_rfl).2 x

theorem lcsLen_le_cons_left (xs ys : List String) (x : String) :
    lcsLen xs ys ≤ lcsLen (x :: xs) ys :=
  (lcsLen_mono_pair2 (xs.length + ys.length) xs ys le_rfl).1 x

theorem lcsLen_cons_right_le (y : String) (xs ys : List String) :
    lcsLen xs (y :: ys) ≤ lcsLen xs ys + 1 :=
  (lcsLen_mono_pair2 (xs.length + ys.length) xs ys le_rfl).2 y

/-- Any common subsequence of two line lists is at most as long as the
longest common subsequence length computed by the recurrence. -/
theorem commonSub_length_le : ∀ (n : Nat) (cs as bs : List String),
    as.length + bs.length ≤ n → List.Sublist cs as → List.Sublist cs bs →
    cs.length ≤ lcsLen as bs := by
  intro n
  induction n with
  | zero =>
    intro cs as bs h h1 h2
    have hx : as = [] := by cases as <;> simp_all
    subst hx
    have : cs = [] := List.sublist_nil.mp h1
    simp [this]
  | succ n ih =>
    intro cs as bs h h1 h2
    cases as with
    | nil =>
      have : cs = [] := List.sublist_nil.mp h1
      simp [this]
    | cons a as' =>
      cases bs with
      | nil =>
        have : cs = [] := List.sublist_nil.mp h2
        simp [this]
      | cons b bs' =>
        cases cs with
        | nil => simp
        | cons c cs' =>
          simp only [List.length_cons] at h
          rw [lcsLen_cons_cons]
          by_cases hab : a = b
          · rw [if_pos hab]
            cases h1 with
            | cons _ h1' =>
              have h3 := ih (c :: cs') as' (b :: bs') (by simp only [List.length_cons]; omega) h1' h2
              have h4 := lcsLen_cons_right_le b as' bs'
              omega
            | cons₂ _ h1' =>
              cases h2 with
              | cons _ h2' =>
                have h3 := ih (a :: cs') (a :: as') bs' (by simp only [List.length_cons]; omega)
                  (List.Sublist.cons₂ a h1') h2'
                have h4 := lcsLen_cons_left_le a as' bs'
                omega
              | cons₂ _ h2' =>
                have h3 := ih cs' as' bs' (by omega) h1' h2'
                simp only [List.length_cons]
                omega
          · rw [if_neg hab]
            cases h1 with
            | cons _ h1' =>
              have h3 := ih (c :: cs') as' (b :: bs') (by simp only [List.length_cons]; omega) h1' h2
              exact h3.trans (le_max_left _ _)
            | cons₂ _ h1' =>
              cases h2 with
              | cons _ h2' =>
                have h3 := ih (a :: cs') (a :: as') bs' (by simp only [List.length_cons]; omega)
                  (List.Sublist.cons₂ a h1') h2'
                exact h3.trans (le_max_right _ _)
              | cons₂ _ h2' => exact absurd rfl hab

theorem replayLeft_map_add (bs : List String) : replayLeft (bs.map .add) = [] := by
  induction bs with
  | nil => rfl
  | cons b bs ih => simp [replayLeft, ih]

theorem replayRight_map_add (bs : List String) : replayRight (bs.map .add) = bs := by
  induction bs with
  | nil => rfl
  | cons b bs ih => simp [replayRight, ih]

theorem replayLeft_map_del (as : List String) : replayLeft (as.map .del) = as := by
  induction as with
  | nil => rfl
  | cons a as ih => simp [replayLeft, ih]

theorem replayRight_map_del (as : List String) : replayRight (as.map .del) = [] := by
  induction as with
  | nil => rfl
  | cons a as ih => simp [replayRight, ih]

theorem all_ctxOpEq_map_add (bs : List String) : (bs.map Op.add).all ctxOpEq = true := by
  induction bs with
  | nil => rfl
  | cons b bs ih => simp [ctxOpEq]

theorem all_ctxOpEq_map_del (as : List String) : (as.map Op.del).all ctxOpEq = true := by
  induction as with
  | nil => rfl
  | cons a as ih => simp [ctxOpEq]

theorem countCtx_map_add (bs : List String) : countCtx (bs.map .add) = 0 := by
  induction bs with
  | nil => rfl
  | cons b bs ih => simp [countCtx, List.countP_cons, isCtxOp]

theorem countCtx_map_del (as : List String) : countCtx (as.map .del) = 0 := by
  induction as with
  | nil => rfl
  | cons a as ih => simp [countCtx, List.countP_cons, isCtxOp]

/-- Combined correctness of the recursive walk: replaying reconstructs
both line lists, every context op carries equal lines and the number of
context ops is exactly the longest common subsequence length. -/
theorem walkSpec_spec : ∀ (n : Nat) (as bs : List String), as.length + bs.length ≤ n →
    replayLeft (walkSpec as bs) = as ∧ replayRight (walkSpec as bs) = bs ∧
      (walkSpec as bs).all ctxOpEq = true ∧ countCtx (walkSpec as bs) = lcsLen as bs := by
  intro n
  induction n with
  | zero =>
    intro as bs h
    have hx : as = [] := by cases as <;> simp_all
    have hy : bs = [] := by cases bs <;> simp_all
    subst hx; subst hy
    exact ⟨rfl, rfl, rfl, rfl⟩
  | succ n ih =>
    intro as bs h
    cases as with
    | nil =>
      rw [walkSpec_nil_left]
      exact ⟨replayLeft_map_add bs, replayRight_map_add bs,
        all_ctxOpEq_map_add bs, by rw [countCtx_map_add, lcsLen_nil_left]⟩
    | cons a as' =>
      cases bs with
      | nil =>
        rw [walkSpec_nil_right]
        exact ⟨replayLeft_map_del _, replayRight_map_del _,
          all_ctxOpEq_map_del _, by rw [countCtx_map_del, lcsLen_nil_right]⟩
      | cons b bs' =>
        simp only [List.length_cons] at h
        rw [walkSpec_cons_cons, lcsLen_cons_cons]
        by_cases hab : a = b
        · rw [if_pos hab, if_pos hab]
          obtain ⟨ih1, ih2, ih3, ih4⟩ := ih as' bs' (by omega)
          refine ⟨?_, ?_, ?_, ?_⟩
          · simp [replayLeft, ih1]
          · simp [replayRight, ih2]
          · simp [ctxOpEq, hab, ih3]
          · simp [countCtx, List.countP_cons, isCtxOp] at ih4 ⊢; omega
        · rw [if_neg hab, if_neg hab]
          by_cases hge : lcsLen as' (b :: bs') ≥ lcsLen (a :: as') bs'
          · rw [if_pos hge]
            obtain ⟨ih1, ih2, ih3, ih4⟩ := ih as' (b :: bs')
              (by simp only [List.length_cons]; omega)
            refine ⟨?_, ?_, ?_, ?_⟩
            · simp [replayLeft, ih1]
            · simp [replayRight, ih2]
            · simp [ctxOpEq, ih3]
            · simp [countCtx, List.countP_cons, isCtxOp] at ih4 ⊢
              have := Nat.max_eq_left hge
              omega
          · rw [if_neg hge]
            obtain ⟨ih1, ih2, ih3, ih4⟩ := ih (a :: as') bs'
              (by simp only [List.length_cons]; omega)
            refine ⟨?_, ?_, ?_, ?_⟩
            · simp [replayLeft, ih1]
            · simp [replayRight, ih2]
            · simp [ctxOpEq, ih3]
            · simp [countCtx, List.countP_cons, isCtxOp] at ih4 ⊢
              have hlt : lcsLen as' (b :: bs') < lcsLen (a :: as') bs' := by omega
              have := Nat.max_eq_right (Nat.le_of_lt hlt)
              omega

theorem drop_get_cons (l : List String) (i : Nat) (h : i < l.length) :
    l.drop i = l.get ⟨i, h⟩ :: l.drop (i + 1) := by
  induction l generalizing i with
  | nil => simp at h
  | cons x xs ih =>
    cases i with
    | zero => simp
    | succ i => simp only [List.drop_succ_cons, List.length_cons, List.get_cons_succ]
                exact ih i (by simp only [List.length_cons] at h; omega)

theorem drop_len_le (l : List String) (i : Nat) (h : l.length ≤ i) : l.drop i = [] := by
  simp [List.drop_eq_nil_iff.mpr h]

/-- The filled DP table agrees with the recursive suffix LCS. -/
theorem lcsTab_eq (a b : List String) : ∀ (n i j : Nat),
    (a.length - i) + (b.length - j) ≤ n →
    lcsTab a b i j = lcsLen (a.drop i) (b.drop j) := by
  intro n
  induction n with
  | zero =>
    intro i j h
    have h1 : a.length ≤ i := by omega
    have h2 : b.length ≤ j := by omega
    rw [lcsTab, dif_neg (by omega), drop_len_le a i h1, lcsLen_nil_left]
  | succ n ih =>
    intro i j h
    by_cases h1 : i < a.length ∧ j < b.length
    · rw [lcsTab, dif_pos h1, drop_get_cons a i h1.1, drop_get_cons b j h1.2,
        lcsLen_cons_cons]
      by_cases heq : a.get ⟨i, h1.1⟩ = b.get ⟨j, h1.2⟩
      · rw [if_pos heq, if_pos heq, ih (i + 1) (j + 1) (by omega)]
      · rw [if_neg heq, if_neg heq, ih (i + 1) j (by omega), ih i (j + 1) (by omega),
          drop_get_cons a i h1.1, drop_get_cons b j h1.2]
    · rw [lcsTab, dif_neg h1]
      rcases Nat.lt_or_ge i a.length with h2 | h2
      · have h3 : b.length ≤ j := by omega
        rw [drop_len_le b j h3, lcsLen_nil_right]
      · rw [drop_len_le a i h2, lcsLen_nil_left]

theorem walkSpec_nil_right_any (as : List String) : walkSpec as [] = as.map .del := by
  cases as <;> rfl

theorem lcsTab_eq' (a b : List String) (i j : Nat) :
    lcsTab a b i j = lcsLen (a.drop i) (b.drop j) :=
  lcsTab_eq a b ((a.length - i) + (b.length - j)) i j le_rfl

/-- The iterative walk over table indices agrees with the recursive walk
on the two suffixes. -/
theorem walkIdx_eq (a b : List String) : ∀ (n i j : Nat),
    (a.length - i) + (b.length - j) ≤ n →
    walkIdx a b i j = walkSpec (a.drop i) (b.drop j) := by
  intro n
  induction n with
  | zero =>
    intro i j h
    have h1 : a.length ≤ i := by omega
    have h2 : b.length ≤ j := by omega
    rw [walkIdx, dif_neg (by omega), drop_len_le a i h1, drop_len_le b j h2]
    rfl
  | succ n ih =>
    intro i j h
    by_cases h1 : i < a.length ∧ j < b.length
    · rw [walkIdx, dif_pos h1]
      by_cases heq : a.get ⟨i, h1.1⟩ = b.get ⟨j, h1.2⟩
      · rw [if_pos heq, ih (i + 1) (j + 1) (by omega),
          drop_get_cons a i h1.1, drop_get_cons b j h1.2, walkSpec_cons_cons,
          if_pos heq]
      · rw [if_neg heq, lcsTab_eq' a b (i + 1) j, lcsTab_eq' a b i (j + 1),
          drop_get_cons a i h1.1, drop_get_cons b j h1.2, walkSpec_cons_cons,
          if_neg heq]
        by_cases hge : lcsLen (a.drop (i + 1)) (b.get ⟨j, h1.2⟩ :: b.drop (j + 1)) ≥
            lcsLen (a.get ⟨i, h1.1⟩ :: a.drop (i + 1)) (b.drop (j + 1))
        · rw [if_pos hge, if_pos hge, ih (i + 1) j (by omega), drop_get_cons b j h1.2]
        · rw [if_neg hge, if_neg hge, ih i (j + 1) (by omega), drop_get_cons a i h1.1]
    · rw [walkIdx, dif_neg h1]
      rcases Nat.lt_or_ge i a.length with h2 | h2
      · have h3 : b.length ≤ j := by omega
        rw [drop_len_le b j h3, walkSpec_nil_right_any]
        simp
      · rw [drop_len_le a i h2, walkSpec_nil_left]
        simp

theorem computeOps_eq_walkSpec (lt rt : String) :
    computeOps lt rt = walkSpec (splitNl lt) (splitNl rt) := by
  rw [computeOps, walkIdx_eq _ _ ((splitNl lt).length + (splitNl rt).length) 0 0 (by omega)]
  simp

theorem ctxLeftLines_sublist (ops : List Op) :
    List.Sublist (ctxLeftLines ops) (replayLeft ops) := by
  induction ops with
  | nil => simp [ctxLeftLines, replayLeft]
  | cons op ops ih =>
    cases op with
    | context l r => exact List.Sublist.cons₂ l ih
    | del l => exact List.Sublist.cons l ih
    | add r => exact ih

theorem ctxRightLines_sublist (ops : List Op) :
    List.Sublist (ctxRightLines ops) (replayRight ops) := by
  induction ops with
  | nil => simp [ctxRightLines, replayRight]
  | cons op ops ih =>
    cases op with
    | context l r => exact List.Sublist.cons₂ r ih
    | del l => exact ih
    | add r => exact List.Sublist.cons r ih

theorem ctxLeftLines_eq_right (ops : List Op) (h : ops.all ctxOpEq = true) :
    ctxLeftLines ops = ctxRightLines ops := by
  induction ops with
  | nil => rfl
  | cons op ops ih =>
    simp only [List.all_cons, Bool.and_eq_true] at h
    cases op with
    | context l r =>
      have : l = r := by simpa [ctxOpEq] using h.1
      simp [ctxLeftLines, ctxRightLines, this, ih h.2]
    | del l => simpa [ctxLeftLines, ctxRightLines] using ih h.2
    | add r => simpa [ctxLeftLines, ctxRightLines] using ih h.2

theorem length_ctxLeftLines (ops : List Op) :
    (ctxLeftLines ops).length = countCtx ops := by
  induction ops with
  | nil => rfl
  | cons op ops ih =>
    cases op <;> simp [ctxLeftLines, countCtx, List.countP_cons, isCtxOp] at ih ⊢ <;> omega

theorem length_replayLeft (ops : List Op) :
    (replayLeft ops).length = countCtx ops + ops.countP isDelOp := by
  induction ops with
  | nil => rfl
  | cons op ops ih =>
    cases op <;>
      simp [replayLeft, countCtx, List.countP_cons, isCtxOp, isDelOp] at ih ⊢ <;> omega

theorem length_replayRight (ops : List Op) :
    (replayRight ops).length = countCtx ops + ops.countP isAddOp := by
  induction ops with
  | nil => rfl
  | cons op ops ih =>
    cases op <;>
      simp [replayRight, countCtx, List.countP_cons, isCtxOp, isAddOp] at ih ⊢ <;> omega

theorem nonContextCount_eq (ops : List Op) :
    nonContextCount ops = ops.countP isDelOp + ops.countP isAddOp := by
  induction ops with
  | nil => rfl
  | cons op ops ih =>
    cases op <;>
      simp [nonContextCount, List.countP_cons, isCtxOp, isDelOp, isAddOp] at ih ⊢ <;> omega

/-- C1: the edit script of computeOps is valid: keeping context right
lines and insert lines reconstructs the right line list, keeping context
left lines and delete lines reconstructs the left line list, and every
context op carries equal lines. -/
theorem c1_script_validity (leftText rightText : String) :
    replayRight (computeOps leftText rightText) = splitNl rightText ∧
      replayLeft (computeOps leftText rightText) = splitNl leftText ∧
      (computeOps leftText rightText).all ctxOpEq = true := by
  rw [computeOps_eq_walkSpec]
  obtain ⟨h1, h2, h3, _⟩ :=
    walkSpec_spec ((splitNl leftText).length + (splitNl rightText).length)
      (splitNl leftText) (splitNl rightText) le_rfl
  exact ⟨h2, h1, h3⟩

/-- C2: the script of computeOps is LCS optimal: its context count is the
length of a longest common subsequence of the two line lists, and its
non-context op count is minimal among all valid scripts between them. -/
theorem c2_lcs_optimality (leftText rightText : String) :
    (∃ cs, List.Sublist cs (splitNl leftText) ∧ List.Sublist cs (splitNl rightText) ∧
      cs.length = countCtx (computeOps leftText rightText) ∧
      ∀ cs', List.Sublist cs' (splitNl leftText) → List.Sublist cs' (splitNl rightText) →
        cs'.length ≤ cs.length) ∧
    ∀ ops, ValidScript (splitNl leftText) (splitNl rightText) ops →
      nonContextCount (computeOps leftText rightText) ≤ nonContextCount ops := by
  obtain ⟨h1, h2, h3, h4⟩ :=
    walkSpec_spec ((splitNl leftText).length + (splitNl rightText).length)
      (splitNl leftText) (splitNl rightText) le_rfl
  constructor
  · refine ⟨ctxLeftLines (walkSpec (splitNl leftText) (splitNl rightText)), ?_, ?_, ?_, ?_⟩
    · have hs := ctxLeftLines_sublist (walkSpec (splitNl leftText) (splitNl rightText))
      rwa [h1] at hs
    · have hs := ctxRightLines_sublist (walkSpec (splitNl leftText) (splitNl rightText))
      rw [h2] at hs
      rwa [ctxLeftLines_eq_right _ h3]
    · rw [computeOps_eq_walkSpec]
      exact length_ctxLeftLines _
    · intro cs' hca hcb
      have hb := commonSub_length_le ((splitNl leftText).length + (splitNl rightText).length)
        cs' (splitNl leftText) (splitNl rightText) le_rfl hca hcb
      rw [length_ctxLeftLines, h4]
      exact hb
  · intro ops hv
    obtain ⟨hv1, hv2, hv3⟩ := hv
    have e1 := length_replayLeft ops; rw [hv1] at e1
    have e2 := length_replayRight ops; rw [hv2] at e2
    have e3 := nonContextCount_eq ops
    have hub : countCtx ops ≤ lcsLen (splitNl leftText) (splitNl rightText) := by
      have hsubL := ctxLeftLines_sublist ops; rw [hv1] at hsubL
      have hsubR := ctxRightLines_sublist ops; rw [hv2] at hsubR
      rw [← ctxLeftLines_eq_right ops hv3] at hsubR
      have hb := commonSub_length_le ((splitNl leftText).length + (splitNl rightText).length)
        (ctxLeftLines ops) (splitNl leftText) (splitNl rightText) le_rfl hsubL hsubR
      rwa [length_ctxLeftLines] at hb
    rw [computeOps_eq_walkSpec]
    have f1 := length_replayLeft (walkSpec (splitNl leftText) (splitNl rightText))
    rw [h1] at f1
    have f2 := length_replayRight (walkSpec (splitNl leftText) (splitNl rightText))
    rw [h2] at f2
    have f3 := nonContextCount_eq (walkSpec (splitNl leftText) (splitNl rightText))
    rw [h4] at f1 f2
    omega

/-- Witness for C2 at concrete inputs: the one-line texts x and y with the
concrete valid script of one delete and one insert. -/
theorem c2_lcs_optimality_witness :
    nonContextCount (computeOps "x" "y") ≤ nonContextCount [Op.del "x", Op.add "y"] :=
  (c2_lcs_optimality "x" "y").2 [Op.del "x", Op.add "y"] ⟨by decide, by decide, by decide⟩

/-- C3: computeOps performs exactly the deterministic walk of the spec,
expressed by the recursive walk walkSpec with the delete-preferring
tie-break and the suffix draining, and is deterministic on its inputs. -/
theorem c3_walk_refinement (leftText rightText : String) :
    computeOps leftText rightText = walkSpec (splitNl leftText) (splitNl rightText) ∧
      computeOps leftText rightText = computeOps leftText rightText :=
  ⟨computeOps_eq_walkSpec leftText rightText, rfl⟩

theorem rowLeftTexts_append (r1 r2 : List Row) :
    rowLeftTexts (r1 ++ r2) = rowLeftTexts r1 ++ rowLeftTexts r2 := by
  simp [rowLeftTexts, List.filterMap_append]

theorem rowRightTexts_append (r1 r2 : List Row) :
    rowRightTexts (r1 ++ r2) = rowRightTexts r1 ++ rowRightTexts r2 := by
  simp [rowRightTexts, List.filterMap_append]

theorem pushRow_texts (acc : List Row) (op : Op) :
    rowLeftTexts (pushRow acc op).reverse = rowLeftTexts acc.reverse ++ opLeftLines [op] ∧
      rowRightTexts (pushRow acc op).reverse = rowRightTexts acc.reverse ++ opRightLines [op] := by
  cases op with
  | context l r =>
    simp [pushRow, rowLeftTexts_append, rowRightTexts_append, rowLeftTexts, rowRightTexts,
      opLeftLines, opRightLines]
  | del l =>
    simp [pushRow, rowLeftTexts_append, rowRightTexts_append, rowLeftTexts, rowRightTexts,
      opLeftLines, opRightLines]
  | add r =>
    cases acc with
    | nil =>
      simp [pushRow, rowLeftTexts, rowRightTexts, opLeftLines, opRightLines]
    | cons prev rest =>
      by_cases hc : prev.type = RowType.del ∧ prev.right = ""
      · rw [pushRow, if_pos hc]
        simp only [List.reverse_cons, rowLeftTexts_append, rowRightTexts_append]
        simp [rowLeftTexts, rowRightTexts, opLeftLines, opRightLines, hc.1]
      · rw [pushRow, if_neg hc]
        simp only [List.reverse_cons, List.append_assoc, rowLeftTexts_append,
          rowRightTexts_append]
        simp [rowLeftTexts, rowRightTexts, opLeftLines, opRightLines]

theorem foldl_pushRow_texts : ∀ (ops : List Op) (acc : List Row),
    rowLeftTexts (ops.foldl pushRow acc).reverse = rowLeftTexts acc.reverse ++ opLeftLines ops ∧
      rowRightTexts (ops.foldl pushRow acc).reverse =
        rowRightTexts acc.reverse ++ opRightLines ops := by
  intro ops
  induction ops with
  | nil => intro acc; simp [opLeftLines, opRightLines]
  | cons op ops ih =>
    intro acc
    rw [List.foldl_cons]
    obtain ⟨ih1, ih2⟩ := ih (pushRow acc op)
    obtain ⟨s1, s2⟩ := pushRow_texts acc op
    constructor
    · rw [ih1, s1]
      simp [opLeftLines, List.filterMap_cons]
      cases op <;> simp
    · rw [ih2, s2]
      simp [opRightLines, List.filterMap_cons]
      cases op <;> simp

/-- C10: the split projection preserves content and order: the left texts
of the rows carrying a left side are exactly the left lines of the context
and delete ops in script order, and the right texts of the rows carrying a
right side are exactly the right lines of the context and insert ops in
script order. -/
theorem c10_split_projection_preserves_lines (ops : List Op) :
    rowLeftTexts (opsToSplitRows ops) = opLeftLines ops ∧
      rowRightTexts (opsToSplitRows ops) = opRightLines ops := by
  obtain ⟨h1, h2⟩ := foldl_pushRow_texts ops []
  rw [opsToSplitRows]
  constructor
  · rw [h1]; simp [rowLeftTexts]
  · rw [h2]; simp [rowRightTexts]

theorem pushRow_rowOk (S : List Op) (acc : List Row) (op : Op) (hop : op ∈ S)
    (hacc : ∀ r ∈ acc, RowOk S r) : ∀ r ∈ pushRow acc op, RowOk S r := by
  cases op with
  | context l r =>
    intro r' hr'
    rw [pushRow] at hr'
    rcases List.mem_cons.mp hr' with h | h
    · subst h
      exact ⟨fun h => by simp at h, fun h => by simp at h, fun h => by simp at h,
        fun _ => hop⟩
    · exact hacc r' h
  | del l =>
    intro r' hr'
    rw [pushRow] at hr'
    rcases List.mem_cons.mp hr' with h | h
    · subst h
      exact ⟨fun h => by simp at h, fun _ => ⟨rfl, hop⟩, fun h => by simp at h,
        fun h => by simp at h⟩
    · exact hacc r' h
  | add rr =>
    cases acc with
    | nil =>
      intro r' hr'
      rw [pushRow] at hr'
      rcases List.mem_cons.mp hr' with h | h
      · subst h
        exact ⟨fun h => by simp at h, fun h => by simp at h, fun _ => ⟨rfl, hop⟩,
          fun h => by simp at h⟩
      · simp at h
    | cons prev rest =>
      intro r' hr'
      by_cases hc : prev.type = RowType.del ∧ prev.right = ""
      · rw [pushRow, if_pos hc] at hr'
        rcases List.mem_cons.mp hr' with h | h
        · subst h
          have hprev := (hacc prev (List.mem_cons_self prev rest)).2.1 hc.1
          exact ⟨fun _ => ⟨hprev.2, hop⟩, fun h => by simp at h, fun h => by simp at h,
            fun h => by simp at h⟩
        · exact hacc r' (List.mem_cons_of_mem prev h)
      · rw [pushRow, if_neg hc] at hr'
        rcases List.mem_cons.mp hr' with h | h
        · subst h
          exact ⟨fun h => by simp at h, fun h => by simp at h, fun _ => ⟨rfl, hop⟩,
            fun h => by simp at h⟩
        · exact hacc r' h

theorem foldl_pushRow_rowOk (S : List Op) : ∀ (ops : List Op) (acc : List Row),
    (∀ op ∈ ops, op ∈ S) → (∀ r ∈ acc, RowOk S r) →
    ∀ r ∈ ops.foldl pushRow acc, RowOk S r := by
  intro ops
  induction ops with
  | nil => intro acc _ hacc; exact hacc
  | cons op ops ih =>
    intro acc hops hacc
    rw [List.foldl_cons]
    exact ih (pushRow acc op) (fun o ho => hops o (List.mem_cons_of_mem op ho))
      (pushRow_rowOk S acc op (hops op (List.mem_cons_self op ops)) hacc)

/-- C5: every row of the split projection of a script whose context ops
carry equal lines satisfies the DiffRow field invariant: change rows carry
a delete-op left text and an insert-op right text, del rows carry only a
left text (their right side is the empty marker), add rows carry only a
right text, and context rows carry equal left and right texts.  The
source represents the absent side of a row by the empty string. -/
theorem c5_row_field_invariant (ops : List Op) (hctx : ops.all ctxOpEq = true) :
    ∀ r ∈ opsToSplitRows ops,
      (r.type = RowType.change → Op.del r.left ∈ ops ∧ Op.add r.right ∈ ops) ∧
      (r.type = RowType.del → r.right = "" ∧ Op.del r.left ∈ ops) ∧
      (r.type = RowType.add → r.left = "" ∧ Op.add r.right ∈ ops) ∧
      (r.type = RowType.context → r.left = r.right) := by
  intro r hr
  rw [opsToSplitRows, List.mem_reverse] at hr
  have hok := foldl_pushRow_rowOk ops ops [] (fun o ho => ho) (by simp) r hr
  refine ⟨hok.1, hok.2.1, hok.2.2.1, fun hty => ?_⟩
  have hmem := hok.2.2.2 hty
  have := List.all_eq_true.mp hctx _ hmem
  simpa [ctxOpEq] using this

/-- Witness for C5 at a concrete script: the merged change row of the
script context a, delete b, insert c carries the delete and insert
lines. -/
theorem c5_row_field_invariant_witness :
    Op.del "b" ∈ [Op.context "a" "a", Op.del "b", Op.add "c"] ∧
      Op.add "c" ∈ [Op.context "a" "a", Op.del "b", Op.add "c"] :=
  (c5_row_field_invariant [Op.context "a" "a", Op.del "b", Op.add "c"] (by decide)
    ⟨RowType.change, "b", "c"⟩ (by decide)).1 rfl

theorem pushRow_chain (acc : List Row) (op : Op)
    (h : List.Chain' (flip NoDelAddPair) acc) :
    List.Chain' (flip NoDelAddPair) (pushRow acc op) := by
  cases op with
  | context l r =>
    rw [pushRow, List.chain'_cons']
    exact ⟨fun b _ => fun hbad => by simp [NoDelAddPair] at hbad, h⟩
  | del l =>
    rw [pushRow, List.chain'_cons']
    exact ⟨fun b _ => fun hbad => by simp [NoDelAddPair] at hbad, h⟩
  | add r =>
    cases acc with
    | nil => simp [pushRow, List.chain'_singleton]
    | cons prev rest =>
      by_cases hc : prev.type = RowType.del ∧ prev.right = ""
      · rw [pushRow, if_pos hc, List.chain'_cons']
        refine ⟨fun b _ => fun hbad => by simp [NoDelAddPair] at hbad, ?_⟩
        exact (List.chain'_cons'.mp h).2
      · rw [pushRow, if_neg hc, List.chain'_cons']
        refine ⟨fun b hb => ?_, h⟩
        simp only [List.head?_cons, Option.mem_def, Option.some.injEq] at hb
        subst hb
        intro hbad
        exact hc ⟨hbad.1, hbad.2.1⟩

theorem foldl_pushRow_chain : ∀ (ops : List Op) (acc : List Row),
    List.Chain' (flip NoDelAddPair) acc →
    List.Chain' (flip NoDelAddPair) (ops.foldl pushRow acc) := by
  intro ops
  induction ops with
  | nil => intro acc h; exact h
  | cons op ops ih =>
    intro acc h
    rw [List.foldl_cons]
    exact ih (pushRow acc op) (pushRow_chain acc op h)

/-- C6: coalescing in the split projection: an insert op arriving when the
last row is a del row with empty right side merges into it and promotes it
to a change row, an insert with no such open predecessor is appended as a
new add row, and consequently the output never contains a del row with
empty right side immediately followed by an add row. -/
theorem c6_coalescing (ops : List Op) (r : String) :
    List.Chain'
      (fun p q => ¬(p.type = RowType.del ∧ p.right = "" ∧ q.type = RowType.add))
      (opsToSplitRows ops) ∧
    (∀ p, (opsToSplitRows ops).getLast? = some p → p.type = RowType.del → p.right = "" →
      opsToSplitRows (ops ++ [Op.add r]) =
        (opsToSplitRows ops).dropLast ++ [⟨RowType.change, p.left, r⟩]) ∧
    ((∀ p, (opsToSplitRows ops).getLast? = some p →
        ¬(p.type = RowType.del ∧ p.right = "")) →
      opsToSplitRows (ops ++ [Op.add r]) = opsToSplitRows ops ++ [⟨RowType.add, "", r⟩]) := by
  refine ⟨?_, ?_, ?_⟩
  · rw [opsToSplitRows, List.chain'_reverse]
    exact foldl_pushRow_chain ops [] List.chain'_nil
  · intro p hlast hdel hright
    rw [opsToSplitRows, List.getLast?_reverse] at hlast
    rw [opsToSplitRows, List.foldl_append, List.foldl_cons, List.foldl_nil]
    cases hacc : ops.foldl pushRow [] with
    | nil => rw [hacc] at hlast; simp at hlast
    | cons prev rest =>
      rw [hacc] at hlast
      simp only [List.head?_cons, Option.some.injEq] at hlast
      subst hlast
      rw [pushRow, if_pos ⟨hdel, hright⟩, opsToSplitRows, hacc]
      simp
  · intro hno
    rw [opsToSplitRows, List.foldl_append, List.foldl_cons, List.foldl_nil]
    cases hacc : ops.foldl pushRow [] with
    | nil =>
      rw [opsToSplitRows, hacc]
      rfl
    | cons prev rest =>
      have hp := hno prev (by rw [opsToSplitRows, List.getLast?_reverse, hacc]; rfl)
      rw [pushRow, if_neg hp, opsToSplitRows, hacc]
      simp

/-- Witness for C6 at a concrete script: an insert right after an open
delete row merges into a change row. -/
theorem c6_coalescing_witness :
    opsToSplitRows ([Op.del "x"] ++ [Op.add "y"]) =
      (opsToSplitRows [Op.del "x"]).dropLast ++ [⟨RowType.change, "x", "y"⟩] :=
  (c6_coalescing [Op.del "x"] "y").2.1 ⟨RowType.del, "x", ""⟩ (by decide) rfl rfl

/-- Mutual induction principle for the value model. -/
theorem js_induction (P : JsValue → Prop) (Q : JsArr → Prop) (R : JsObj → Prop)
    (hundef : P .undef) (hnull : P .null) (hbool : ∀ b, P (.bool b))
    (hnum : ∀ n, P (.num n)) (hbig : ∀ n, P (.bigint n)) (hstr : ∀ s, P (.str s))
    (harr : ∀ xs, Q xs → P (.arr xs)) (hobj : ∀ kvs, R kvs → P (.obj kvs))
    (hanil : Q .nil) (hacons : ∀ x xs, P x → Q xs → Q (.cons x xs))
    (honil : R .nil) (hocons : ∀ k v l, P v → R l → R (.cons k v l)) :
    (∀ v, P v) ∧ (∀ xs, Q xs) ∧ (∀ l, R l) :=
  ⟨fun v => @JsValue.rec P Q R hundef hnull hbool hnum hbig hstr harr hobj
      hanil hacons honil hocons v,
    fun xs => @JsArr.rec P Q R hundef hnull hbool hnum hbig hstr harr hobj
      hanil hacons honil hocons xs,
    fun l => @JsObj.rec P Q R hundef hnull hbool hnum hbig hstr harr hobj
      hanil hacons honil hocons l⟩

theorem charsLe_total : ∀ (a b : List Char), charsLe a b = true ∨ charsLe b a = true := by
  intro a
  induction a with
  | nil => intro b; left; rfl
  | cons c cs ih =>
    intro b
    cases b with
    | nil => right; rfl
    | cons d ds =>
      rw [charsLe, charsLe]
      rcases Nat.lt_trichotomy c.toNat d.toNat with h | h | h
      · left; rw [if_pos h]
      · rw [if_neg (by omega), if_neg (by omega), if_neg (by omega), if_neg (by omega)]
        exact ih ds
      · right; rw [if_pos h]

theorem char_toNat_inj {c d : Char} (h : c.toNat = d.toNat) : c = d := by
  have h1 : Char.ofNat c.toNat = Char.ofNat d.toNat := by rw [h]
  rwa [Char.ofNat_toNat, Char.ofNat_toNat] at h1

theorem charsLe_antisymm : ∀ (a b : List Char),
    charsLe a b = true → charsLe b a = true → a = b := by
  intro a
  induction a with
  | nil =>
    intro b _ hba
    cases b with
    | nil => rfl
    | cons d ds => rw [charsLe] at hba; simp at hba
  | cons c cs ih =>
    intro b hab hba
    cases b with
    | nil => rw [charsLe] at hab; simp at hab
    | cons d ds =>
      rw [charsLe] at hab hba
      rcases Nat.lt_trichotomy c.toNat d.toNat with h | h | h
      · rw [if_neg (show ¬ d.toNat < c.toNat by omega), if_pos h] at hba
        simp at hba
      · rw [if_neg (show ¬ c.toNat < d.toNat by omega),
          if_neg (show ¬ d.toNat < c.toNat by omega)] at hab
        rw [if_neg (show ¬ d.toNat < c.toNat by omega),
          if_neg (show ¬ c.toNat < d.toNat by omega)] at hba
        rw [char_toNat_inj h, ih ds hab hba]
      · rw [if_neg (show ¬ c.toNat < d.toNat by omega), if_pos h] at hab
        simp at hab

theorem charsLe_trans : ∀ (a b c : List Char),
    charsLe a b = true → charsLe b c = true → charsLe a c = true := by
  intro a
  induction a with
  | nil => intro b c _ _; rfl
  | cons x xs ih =>
    intro b c hab hbc
    cases b with
    | nil => rw [charsLe] at hab; simp at hab
    | cons y ys =>
      cases c with
      | nil => rw [charsLe] at hbc; simp at hbc
      | cons z zs =>
        rw [charsLe] at hab hbc ⊢
        rcases Nat.lt_trichotomy x.toNat y.toNat with h1 | h1 | h1
        · rcases Nat.lt_trichotomy y.toNat z.toNat with h2 | h2 | h2
          · rw [if_pos (show x.toNat < z.toNat by omega)]
          · rw [if_pos (show x.toNat < z.toNat by omega)]
          · rw [if_neg (show ¬ y.toNat < z.toNat by omega), if_pos h2] at hbc
            simp at hbc
        · rcases Nat.lt_trichotomy y.toNat z.toNat with h2 | h2 | h2
          · rw [if_pos (show x.toNat < z.toNat by omega)]
          · rw [if_neg (show ¬ x.toNat < y.toNat by omega),
              if_neg (show ¬ y.toNat < x.toNat by omega)] at hab
            rw [if_neg (show ¬ y.toNat < z.toNat by omega),
              if_neg (show ¬ z.toNat < y.toNat by omega)] at hbc
            rw [if_neg (show ¬ x.toNat < z.toNat by omega),
              if_neg (show ¬ z.toNat < x.toNat by omega)]
            exact ih ys zs hab hbc
          · rw [if_neg (show ¬ y.toNat < z.toNat by omega), if_pos h2] at hbc
            simp at hbc
        · rw [if_neg (show ¬ x.toNat < y.toNat by omega), if_pos h1] at hab
          simp at hab

theorem strLe_total (s t : String) : strLe s t = true ∨ strLe t s = true :=
  charsLe_total s.data t.data

theorem strLe_antisymm {s t : String} (h1 : strLe s t = true) (h2 : strLe t s = true) :
    s = t := by
  cases s with
  | mk a =>
    cases t with
    | mk b =>
      exact congrArg String.mk (charsLe_antisymm a b h1 h2)

theorem strLe_trans {s t u : String} (h1 : strLe s t = true) (h2 : strLe t u = true) :
    strLe s u = true :=
  charsLe_trans s.data t.data u.data h1 h2

theorem keyLe_total' (p q : String × JsValue) : keyLe p q ∨ keyLe q p :=
  strLe_total p.1 q.1

theorem keyLe_not_both {p q : String × JsValue} (h : p.1 ≠ q.1) :
    ¬(keyLe p q ∧ keyLe q p) := fun hb => h (strLe_antisymm hb.1 hb.2)

theorem keyLe_trans {p q s : String × JsValue} (h1 : keyLe p q) (h2 : keyLe q s) :
    keyLe p s := strLe_trans h1 h2

/-- Inserting two entries with distinct keys into a sorted list commutes,
which is what makes the sorted object independent of the input key
order. -/
theorem orderedInsert_comm (p q : String × JsValue) (hne : p.1 ≠ q.1) :
    ∀ l, List.orderedInsert keyLe p (List.orderedInsert keyLe q l) =
      List.orderedInsert keyLe q (List.orderedInsert keyLe p l) := by
  intro l
  induction l with
  | nil =>
    by_cases h1 : keyLe p q
    · have h2 : ¬ keyLe q p := fun h2 => keyLe_not_both hne ⟨h1, h2⟩
      simp [List.orderedInsert, h1, h2]
    · have h2 : keyLe q p := (keyLe_total' p q).resolve_left h1
      simp [List.orderedInsert, h1, h2]
  | cons a l ih =>
    by_cases hqa : keyLe q a
    · by_cases hpq : keyLe p q
      · have hqp : ¬ keyLe q p := fun h2 => keyLe_not_both hne ⟨hpq, h2⟩
        have hpa : keyLe p a := keyLe_trans hpq hqa
        simp [List.orderedInsert, hqa, hpq, hqp, hpa]
      · have hqp : keyLe q p := (keyLe_total' p q).resolve_left hpq
        by_cases hpa : keyLe p a
        · simp [List.orderedInsert, hqa, hpq, hqp, hpa]
        · simp [List.orderedInsert, hqa, hpq, hqp, hpa]
    · by_cases hpa : keyLe p a
      · have hqp : ¬ keyLe q p := fun h2 => hqa (keyLe_trans h2 hpa)
        simp [List.orderedInsert, hqa, hpa, hqp]
      · simp [List.orderedInsert, hqa, hpa, ih]

theorem objToList_listToObj (L : List (String × JsValue)) :
    objToList (listToObj L) = L := by
  induction L with
  | nil => rfl
  | cons p l ih =>
    cases p
    simp [objToList, listToObj, ih]

theorem listToObj_inj {L M : List (String × JsValue)} (h : listToObj L = listToObj M) :
    L = M := by
  have := congrArg objToList h
  rwa [objToList_listToObj, objToList_listToObj] at this

/-- Key-order permutation of the input leaves the key-sorted canonical
value unchanged. -/
theorem keyPerm_stableSortKeys {v w : JsValue} (h : KeyPerm v w) :
    stableSortKeys v = stableSortKeys w := by
  induction h with
  | undef => rfl
  | null => rfl
  | bool b => rfl
  | num n => rfl
  | bigint n => rfl
  | str s => rfl
  | arrNil => rfl
  | arrCons h1 h2 ih1 ih2 =>
    simp only [stableSortKeys, sskArr, JsValue.arr.injEq, JsArr.cons.injEq] at ih2 ⊢
    exact ⟨ih1, ih2⟩
  | objNil => rfl
  | objCons k h1 h2 ih1 ih2 =>
    simp only [stableSortKeys, sskObj, sortObj, objToList, List.insertionSort,
      JsValue.obj.injEq] at ih2 ⊢
    have hsort := listToObj_inj ih2
    rw [ih1, hsort]
  | objSwap hne =>
    simp only [stableSortKeys, sskObj, sortObj, objToList, List.insertionSort,
      JsValue.obj.injEq]
    exact congrArg listToObj (orderedInsert_comm _ _ hne _)
  | trans h1 h2 ih1 ih2 => exact ih1.trans ih2

/-- Key-order permutation relates undefined only to undefined. -/
theorem keyPerm_isUndef {v w : JsValue} (h : KeyPerm v w) : isUndef v = isUndef w := by
  induction h with
  | trans h1 h2 ih1 ih2 => exact ih1.trans ih2
  | _ => rfl

/-- Serialization fails exactly on values that contain a BigInt or are the
undefined value itself. -/
theorem jstr_err_char :
    (∀ v, ∀ d, isErrS (jstr d v) = (hasBigint v || isUndef v)) ∧
      (∀ xs, ∀ d, isErrL (jstrArr d xs) = hasBigintArr xs) ∧
      (∀ l, ∀ d, isErrL (jstrObj d l) = hasBigintObj l) := by
  refine js_induction (fun v => ∀ d, isErrS (jstr d v) = (hasBigint v || isUndef v))
    (fun xs => ∀ d, isErrL (jstrArr d xs) = hasBigintArr xs)
    (fun l => ∀ d, isErrL (jstrObj d l) = hasBigintObj l)
    ?_ ?_ ?_ ?_ ?_ ?_ ?_ ?_ ?_ ?_ ?_ ?_
  · intro d; rfl
  · intro d; rfl
  · intro b d; rfl
  · intro n d; rfl
  · intro n d; rfl
  · intro s d; rfl
  · intro xs ih d
    simp only [jstr, hasBigint, isUndef, Bool.or_false]
    cases hres : jstrArr (d + 1) xs with
    | error e =>
      have := ih (d + 1)
      rw [hres] at this
      simp [isErrL] at this
      simp [isErrS, ← this]
    | ok ls =>
      have := ih (d + 1)
      rw [hres] at this
      simp [isErrL] at this
      cases ls <;> simp [isErrS, ← this]
  · intro kvs ih d
    simp only [jstr, hasBigint, isUndef, Bool.or_false]
    cases hres : jstrObj (d + 1) kvs with
    | error e =>
      have := ih (d + 1)
      rw [hres] at this
      simp [isErrL] at this
      simp [isErrS, ← this]
    | ok ls =>
      have := ih (d + 1)
      rw [hres] at this
      simp [isErrL] at this
      cases ls <;> simp [isErrS, ← this]
  · intro d; rfl
  · intro x xs ihx ihxs d
    cases x with
    | undef =>
      simp only [jstrArr, hasBigintArr, hasBigint, Bool.false_or]
      cases hres : jstrArr d xs with
      | error e =>
        have := ihxs d; rw [hres] at this; simp [isErrL] at this
        simp [isErrL, ← this]
      | ok ls =>
        have := ihxs d; rw [hres] at this; simp [isErrL] at this
        simp [isErrL, ← this]
    | null =>
      simp only [jstrArr, hasBigintArr, hasBigint, Bool.false_or, jstr]
      cases hres : jstrArr d xs with
      | error e =>
        have := ihxs d; rw [hres] at this; simp [isErrL] at this
        simp [isErrL, ← this]
      | ok ls =>
        have := ihxs d; rw [hres] at this; simp [isErrL] at this
        simp [isErrL, ← this]
    | bool b =>
      simp only [jstrArr, hasBigintArr, hasBigint, Bool.false_or, jstr]
      cases hres : jstrArr d xs with
      | error e =>
        have := ihxs d; rw [hres] at this; simp [isErrL] at this
        simp [isErrL, ← this]
      | ok ls =>
        have := ihxs d; rw [hres] at this; simp [isErrL] at this
        simp [isErrL, ← this]
    | num n =>
      simp only [jstrArr, hasBigintArr, hasBigint, Bool.false_or, jstr]
      cases hres : jstrArr d xs with
      | error e =>
        have := ihxs d; rw [hres] at this; simp [isErrL] at this
        simp [isErrL, ← this]
      | ok ls =>
        have := ihxs d; rw [hres] at this; simp [isErrL] at this
        simp [isErrL, ← this]
    | bigint n => simp [jstrArr, hasBigintArr, hasBigint, jstr, isErrL]
    | str s =>
      simp only [jstrArr, hasBigintArr, hasBigint, Bool.false_or, jstr]
      cases hres : jstrArr d xs with
      | error e =>
        have := ihxs d; rw [hres] at this; simp [isErrL] at this
        simp [isErrL, ← this]
      | ok ls =>
        have := ihxs d; rw [hres] at this; simp [isErrL] at this
        simp [isErrL, ← this]
    | arr ys =>
      simp only [jstrArr, hasBigintArr]
      cases hinner : jstr d (.arr ys) with
      | error e =>
        have hx := ihx d; rw [hinner] at hx; simp [isErrS, isUndef] at hx
        simp [isErrL, hx]
      | ok s =>
        have hx := ihx d; rw [hinner] at hx; simp [isErrS, isUndef] at hx
        cases hres : jstrArr d xs with
        | error e =>
          have := ihxs d; rw [hres] at this; simp [isErrL] at this
          simp [isErrL, ← this, hx]
        | ok ls =>
          have := ihxs d; rw [hres] at this; simp [isErrL] at this
          simp [isErrL, ← this, hx]
    | obj kvs =>
      simp only [jstrArr, hasBigintArr]
      cases hinner : jstr d (.obj kvs) with
      | error e =>
        have hx := ihx d; rw [hinner] at hx; simp [isErrS, isUndef] at hx
        simp [isErrL, hx]
      | ok s =>
        have hx := ihx d; rw [hinner] at hx; simp [isErrS, isUndef] at hx
        cases hres : jstrArr d xs with
        | error e =>
          have := ihxs d; rw [hres] at this; simp [isErrL] at this
          simp [isErrL, ← this, hx]
        | ok ls =>
          have := ihxs d; rw [hres] at this; simp [isErrL] at this
          simp [isErrL, ← this, hx]
  · intro d; rfl
  · intro k v l ihv ihl d
    cases v with
    | undef =>
      simp only [jstrObj, hasBigintObj, hasBigint, Bool.false_or]
      exact ihl d
    | null =>
      simp only [jstrObj, hasBigintObj, hasBigint, Bool.false_or, jstr]
      cases hres : jstrObj d l with
      | error e =>
        have := ihl d; rw [hres] at this; simp [isErrL] at this
        simp [isErrL, ← this]
      | ok ls =>
        have := ihl d; rw [hres] at this; simp [isErrL] at this
        simp [isErrL, ← this]
    | bool b =>
      simp only [jstrObj, hasBigintObj, hasBigint, Bool.false_or, jstr]
      cases hres : jstrObj d l with
      | error e =>
        have := ihl d; rw [hres] at this; simp [isErrL] at this
        simp [isErrL, ← this]
      | ok ls =>
        have := ihl d; rw [hres] at this; simp [isErrL] at this
        simp [isErrL, ← this]
    | num n =>
      simp only [jstrObj, hasBigintObj, hasBigint, Bool.false_or, jstr]
      cases hres : jstrObj d l with
      | error e =>
        have := ihl d; rw [hres] at this; simp [isErrL] at this
        simp [isErrL, ← this]
      | ok ls =>
        have := ihl d; rw [hres] at this; simp [isErrL] at this
        simp [isErrL, ← this]
    | bigint n => simp [jstrObj, hasBigintObj, hasBigint, jstr, isErrL]
    | str s =>
      simp only [jstrObj, hasBigintObj, hasBigint, Bool.false_or, jstr]
      cases hres : jstrObj d l with
      | error e =>
        have := ihl d; rw [hres] at this; simp [isErrL] at this
        simp [isErrL, ← this]
      | ok ls =>
        have := ihl d; rw [hres] at this; simp [isErrL] at this
        simp [isErrL, ← this]
    | arr ys =>
      simp only [jstrObj, hasBigintObj]
      cases hinner : jstr d (.arr ys) with
      | error e =>
        have hx := ihv d; rw [hinner] at hx; simp [isErrS, isUndef] at hx
        simp [isErrL, hx]
      | ok s =>
        have hx := ihv d; rw [hinner] at hx; simp [isErrS, isUndef] at hx
        cases hres : jstrObj d l with
        | error e =>
          have := ihl d; rw [hres] at this; simp [isErrL] at this
          simp [isErrL, ← this, hx]
        | ok ls =>
          have := ihl d; rw [hres] at this; simp [isErrL] at this
          simp [isErrL, ← this, hx]
    | obj kvs =>
      simp only [jstrObj, hasBigintObj]
      cases hinner : jstr d (.obj kvs) with
      | error e =>
        have hx := ihv d; rw [hinner] at hx; simp [isErrS, isUndef] at hx
        simp [isErrL, hx]
      | ok s =>
        have hx := ihv d; rw [hinner] at hx; simp [isErrS, isUndef] at hx
        cases hres : jstrObj d l with
        | error e =>
          have := ihl d; rw [hres] at this; simp [isErrL] at this
          simp [isErrL, ← this, hx]
        | ok ls =>
          have := ihl d; rw [hres] at this; simp [isErrL] at this
          simp [isErrL, ← this, hx]

theorem perm_any {α : Type} (p : α → Bool) {l1 l2 : List α} (h : l1.Perm l2) :
    l1.any p = l2.any p := by
  have hiff : (l1.any p = true) ↔ (l2.any p = true) := by
    simp only [List.any_eq_true]
    exact ⟨fun ⟨x, hx, hp⟩ => ⟨x, h.mem_iff.mp hx, hp⟩,
      fun ⟨x, hx, hp⟩ => ⟨x, h.mem_iff.mpr hx, hp⟩⟩
  rcases Bool.eq_false_or_eq_true (l1.any p) with h1 | h1 <;>
    rcases Bool.eq_false_or_eq_true (l2.any p) with h2 | h2
  · rw [h1, h2]
  · exact absurd (hiff.mp h1) (by rw [h2]; simp)
  · exact absurd (hiff.mpr h2) (by rw [h1]; simp)
  · rw [h1, h2]

theorem hasBigintObj_eq_any (l : JsObj) :
    hasBigintObj l = (objToList l).any (fun p => hasBigint p.2) :=
  ((js_induction (fun _ => True) (fun _ => True)
    (fun l => hasBigintObj l = (objToList l).any (fun p => hasBigint p.2))
    trivial trivial (fun _ => trivial) (fun _ => trivial) (fun _ => trivial)
    (fun _ => trivial) (fun _ _ => trivial) (fun _ _ => trivial) trivial
    (fun _ _ _ _ => trivial) rfl
    (fun k v l _ ih => by simp [hasBigintObj, objToList, ih])).2.2) l

theorem hasBigintObj_sortObj (l : JsObj) : hasBigintObj (sortObj l) = hasBigintObj l := by
  rw [sortObj, hasBigintObj_eq_any, objToList_listToObj, hasBigintObj_eq_any]
  exact perm_any _ (List.perm_insertionSort keyLe (objToList l))

/-- Key sorting does not change whether a value contains a BigInt. -/
theorem hasBigint_ssk :
    (∀ v, hasBigint (stableSortKeys v) = hasBigint v) ∧
      (∀ xs, hasBigintArr (sskArr xs) = hasBigintArr xs) ∧
      (∀ l, hasBigintObj (sskObj l) = hasBigintObj l) := by
  refine js_induction (fun v => hasBigint (stableSortKeys v) = hasBigint v)
    (fun xs => hasBigintArr (sskArr xs) = hasBigintArr xs)
    (fun l => hasBigintObj (sskObj l) = hasBigintObj l)
    rfl rfl (fun b => rfl) (fun n => rfl) (fun n => rfl) (fun s => rfl)
    ?_ ?_ rfl ?_ rfl ?_
  · intro xs ih
    simp [stableSortKeys, hasBigint, ih]
  · intro kvs ih
    simp only [stableSortKeys, hasBigint]
    rw [hasBigintObj_sortObj, ih]
  · intro x xs ihx ihxs
    simp [sskArr, hasBigintArr, ihx, ihxs]
  · intro k v l ihv ihl
    simp [sskObj, hasBigintObj, ihv, ihl]

theorem isUndef_ssk (v : JsValue) : isUndef (stableSortKeys v) = isUndef v := by
  cases v <;> rfl

theorem toPrettyJSON_eq (v : JsValue) (h : isUndef v = false) :
    toPrettyJSON v =
      (match jstr 0 (stableSortKeys v) with
        | .ok s => s
        | .error _ =>
          match jstr 0 v with
          | .ok s => s
          | .error _ => jsToString v) := by
  cases v with
  | undef => simp [isUndef] at h
  | null => rfl
  | bool b => rfl
  | num n => rfl
  | bigint n => rfl
  | str s => rfl
  | arr xs => rfl
  | obj kvs => rfl

/-- C4: normalization is deterministic across repeated calls and invariant
under reordering of object keys at any nesting level.  The hypotheses say
that v is an ordinary JSON value: no BigInt inside and not the undefined
value. -/
theorem c4_normalization_key_order (v w : JsValue) (hbig : hasBigint v = false)
    (hundef : isUndef v = false) (hperm : KeyPerm v w) :
    toPrettyJSON v = toPrettyJSON v ∧ toPrettyJSON v = toPrettyJSON w := by
  refine ⟨rfl, ?_⟩
  have hwundef : isUndef w = false := (keyPerm_isUndef hperm) ▸ hundef
  have hssk := keyPerm_stableSortKeys hperm
  have hne : isErrS (jstr 0 (stableSortKeys v)) = false := by
    rw [jstr_err_char.1, hasBigint_ssk.1, isUndef_ssk, hbig, hundef]
    rfl
  cases hres : jstr 0 (stableSortKeys v) with
  | error e => rw [hres] at hne; simp [isErrS] at hne
  | ok s =>
    rw [toPrettyJSON_eq v hundef, toPrettyJSON_eq w hwundef, ← hssk, hres]

/-- Witness for C4: two key orders of the object with keys a and b
normalize to the same text. -/
theorem c4_normalization_key_order_witness :
    toPrettyJSON (.obj (.cons "b" (.num 2) (.cons "a" (.num 1) .nil))) =
      toPrettyJSON (.obj (.cons "a" (.num 1) (.cons "b" (.num 2) .nil))) :=
  (c4_normalization_key_order (.obj (.cons "b" (.num 2) (.cons "a" (.num 1) .nil)))
    (.obj (.cons "a" (.num 1) (.cons "b" (.num 2) .nil))) (by decide) (by decide)
    (KeyPerm.objSwap (by decide))).2

/-- C8: toPrettyJSON is total and never raises: undefined maps to the
empty string, a serializable value returns its key-sorted serialization,
and when serializing the key-sorted form fails the original value also
fails to serialize in this code and the String coercion fallback is
returned, so a string comes back in every case. -/
theorem c8_pretty_json_fallback (v : JsValue) :
    (isUndef v = true → toPrettyJSON v = "") ∧
    (isUndef v = false → hasBigint v = false →
      jstr 0 (stableSortKeys v) = Except.ok (toPrettyJSON v)) ∧
    (isUndef v = false → jstr 0 (stableSortKeys v) = Except.error () →
      jstr 0 v = Except.error () ∧ toPrettyJSON v = jsToString v) := by
  refine ⟨?_, ?_, ?_⟩
  · intro h
    cases v with
    | undef => rfl
    | null => simp [isUndef] at h
    | bool b => simp [isUndef] at h
    | num n => simp [isUndef] at h
    | bigint n => simp [isUndef] at h
    | str s => simp [isUndef] at h
    | arr xs => simp [isUndef] at h
    | obj kvs => simp [isUndef] at h
  · intro hu hb
    have hne : isErrS (jstr 0 (stableSortKeys v)) = false := by
      rw [jstr_err_char.1, hasBigint_ssk.1, isUndef_ssk, hb, hu]
      rfl
    cases hres : jstr 0 (stableSortKeys v) with
    | error e => rw [hres] at hne; simp [isErrS] at hne
    | ok s => rw [toPrettyJSON_eq v hu, hres]
  · intro hu herr
    have h1 : isErrS (jstr 0 (stableSortKeys v)) = true := by rw [herr]; rfl
    rw [jstr_err_char.1, hasBigint_ssk.1, isUndef_ssk, hu] at h1
    have hb : hasBigint v = true := by simpa using h1
    have h2 : isErrS (jstr 0 v) = true := by
      rw [jstr_err_char.1, hb]
      rfl
    have h3 : jstr 0 v = Except.error () := by
      cases hres : jstr 0 v with
      | error e => cases e; rfl
      | ok s => rw [hres] at h2; simp [isErrS] at h2
    refine ⟨h3, ?_⟩
    rw [toPrettyJSON_eq v hu, herr, h3]

/-- Witness for C8 at a BigInt, where both serializations fail and the
String coercion fallback is returned, and at an ordinary object, where the
key-sorted serialization is returned. -/
theorem c8_pretty_json_fallback_witness :
    (jstr 0 (JsValue.bigint 5) = Except.error () ∧
      toPrettyJSON (JsValue.bigint 5) = jsToString (JsValue.bigint 5)) ∧
    jstr 0 (stableSortKeys (JsValue.obj (.cons "x" (.num 1) .nil))) =
      Except.ok (toPrettyJSON (JsValue.obj (.cons "x" (.num 1) .nil))) :=
  ⟨(c8_pretty_json_fallback (JsValue.bigint 5)).2.2 rfl rfl,
    (c8_pretty_json_fallback (JsValue.obj (.cons "x" (.num 1) .nil))).2.1 rfl rfl⟩

/-- Counterexample to C7: with left undefined and right the object with
key x and value 1, the normalized right text has three lines, so the edit
script is not a single insert and the unified view does not show the
single line plus x colon 1. -/
theorem c7_counterexample :
    (computeOps (toPrettyJSON .undef)
        (toPrettyJSON (.obj (.cons "x" (.num 1) .nil)))).length ≠ 1 ∧
    unifiedLines (computeOps (toPrettyJSON .undef)
        (toPrettyJSON (.obj (.cons "x" (.num 1) .nil)))) ≠ ["+ x: 1"] := by
  rw [computeOps_eq_walkSpec]
  constructor <;> decide

/-- C7 amended: with left undefined and right the object with key x and
value 1, the normalized left text is the empty string, splitting to a
single empty line; the edit script is one delete of that empty line
followed by inserts of the three right lines, and the unified view shows
those four lines. -/
theorem c7_amended_example :
    toPrettyJSON .undef = "" ∧
    splitNl "" = [""] ∧
    computeOps (toPrettyJSON .undef) (toPrettyJSON (.obj (.cons "x" (.num 1) .nil))) =
      [Op.del "", Op.add "\x7b", Op.add "  \"x\": 1", Op.add "\x7d"] ∧
    unifiedLines (computeOps (toPrettyJSON .undef)
        (toPrettyJSON (.obj (.cons "x" (.num 1) .nil)))) =
      ["- ", "+ \x7b", "+   \"x\": 1", "+ \x7d"] := by
  refine ⟨rfl, rfl, ?_, ?_⟩ <;> rw [computeOps_eq_walkSpec] <;> decide

/-- C9: default expansion of the tree renderer: a container node rendered
at depth d starts collapsed exactly when d is at least
defaultCollapsedDepth, leaves carry no collapse state, and the tree view
of the object a to object b to 1 with defaultCollapsedDepth one renders
the root expanded and the child at key a collapsed. -/
theorem c9_default_expansion_policy :
    (∀ (name : Option String) (v : JsValue) (depth dcd : Nat), isContainer v = true →
      rtCollapsed (JsonNode name v depth dcd) = some (decide (dcd ≤ depth))) ∧
    (∀ (name : Option String) (v : JsValue) (depth dcd : Nat), isContainer v = false →
      rtCollapsed (JsonNode name v depth dcd) = none) ∧
    JsonView (.obj (.cons "a" (.obj (.cons "b" (.num 1) .nil)) .nil)) 1 =
      RTree.container none "Object(1)" false
        [RTree.container (some "a") "Object(1)" true [RTree.leaf (some "b") "1"]] := by
  refine ⟨?_, ?_, ?_⟩
  · intro name v depth dcd h
    cases v with
    | arr xs => rfl
    | obj kvs => rfl
    | undef => simp [isContainer] at h
    | null => simp [isContainer] at h
    | bool b => simp [isContainer] at h
    | num n => simp [isContainer] at h
    | bigint n => simp [isContainer] at h
    | str s => simp [isContainer] at h
  · intro name v depth dcd h
    cases v with
    | arr xs => simp [isContainer] at h
    | obj kvs => simp [isContainer] at h
    | undef => rfl
    | null => rfl
    | bool b => rfl
    | num n => rfl
    | bigint n => rfl
    | str s => rfl
  · rfl

/-- Witness for C9: the empty array container at depth zero with default
collapse depth zero starts collapsed, and a number leaf carries no
collapse state. -/
theorem c9_default_expansion_policy_witness :
    rtCollapsed (JsonNode none (.arr .nil) 0 0) = some (decide (0 ≤ 0)) ∧
      rtCollapsed (JsonNode none (.num 7) 3 1) = none :=
  ⟨c9_default_expansion_policy.1 none (.arr .nil) 0 0 rfl,
    c9_default_expansion_policy.2.1 none (.num 7) 3 1 rfl⟩
